import Mathlib

/-!
Verification of the polls application core (`polls/models.py`, `polls/views.py`,
`polls/forms.py`) against its natural-language specification.

The relational store is embedded shallowly: a `Store` holds the persisted
`Question` and `Choice` rows in persistence (insertion) order.  Timestamps are
modelled as integer seconds, `IntegerField` as `Int`, `CharField` as `String`
(whose `length` counts code points, as the framework's max-length validation
does).  SQL aggregates that can be `NULL` are modelled as `Option Int`.
Percentages and vote shares are computed in `ℚ` (the code uses floating point);
all operations here are exact divisions, so `ℚ` carries the same contract.
-/

namespace Polls

/-- A persisted `Question` row: `models.py`, class `Question`
(`question_text = CharField(max_length=200)`, `pub_date = DateTimeField`). -/
structure Question where
  id : Nat
  question_text : String
  pub_date : Int
deriving Repr, DecidableEq

/-- A persisted `Choice` row: `models.py`, class `Choice`
(`question = ForeignKey(Question)`, `choice_text = CharField(max_length=200)`,
`votes = IntegerField(default=0)`).  `question` holds the owning question's id. -/
structure Choice where
  id : Nat
  question : Nat
  choice_text : String
  votes : Int
deriving Repr, DecidableEq

/-- The relational store: all rows, in persistence order. -/
structure Store where
  questions : List Question
  choices : List Choice
deriving Repr, DecidableEq

/-- Database well-formedness: primary keys are unique and every `Choice`
references an existing `Question` (the foreign-key constraint). -/
structure WF (s : Store) : Prop where
  qIds : (s.questions.map (fun q => q.id)).Nodup
  cIds : (s.choices.map (fun c => c.id)).Nodup
  fk : ∀ c ∈ s.choices, ∃ q ∈ s.questions, q.id = c.question

/-- Embeds `question.choice_set.all()`: the choices owned by question `qid`,
in persistence order. -/
def choicesOf (s : Store) (qid : Nat) : List Choice :=
  s.choices.filter (fun c => c.question == qid)

/-- Embeds `get_object_or_404(Question, pk=question_id)` respectively
`Question.objects.get(pk=...)`: lookup by primary key. -/
def getQuestion (s : Store) (qid : Nat) : Option Question :=
  s.questions.find? (fun q => q.id == qid)

/-- Sum of the `votes` column over a list of choices. -/
def totalVotes (cs : List Choice) : Int :=
  (cs.map (fun c => c.votes)).sum

/-- Embeds `self.choice_set.aggregate(total=Sum('votes'))['total']`: SQL `SUM` over the
owned choices, which is `NULL` (here `none`) when the question owns no choices. -/
def sumVotes (s : Store) (qid : Nat) : Option Int :=
  match choicesOf s qid with
  | [] => none
  | cs => some (totalVotes cs)

/-- From `models.py`, `Question.get_choices`: one `(choice_text, votes, percentage)`
triple per owned choice, in persistence order.  The Python guard `if not total`
is true when the aggregate is `NULL` (no choices) or `0`; in that branch the
percentage is the literal `0` and no division happens.  Otherwise the
percentage is `(c.votes / total) * 100`, with no rounding. -/
def get_choices (s : Store) (q : Question) : List (String × Int × ℚ) :=
  match sumVotes s q.id with
  | none => (choicesOf s q.id).map (fun c => (c.choice_text, c.votes, (0 : ℚ)))
  | some t =>
    if t = 0 then
      (choicesOf s q.id).map (fun c => (c.choice_text, c.votes, (0 : ℚ)))
    else
      (choicesOf s q.id).map
        (fun c => (c.choice_text, c.votes, ((c.votes : ℚ) / (t : ℚ)) * 100))

/-- From `models.py`, `Question.was_published_recently`:
`self.pub_date >= timezone.now() - datetime.timedelta(days=1)`, on integer
second timestamps (one day = 86400 seconds). -/
def was_published_recently (now : Int) (q : Question) : Bool :=
  decide (now - 86400 ≤ q.pub_date)

/-- Python's `max(choices, key=f)`: a left fold over the iterable that replaces
the current best only when the key is strictly greater, so the first occurrence
of the maximal key wins. -/
def maxByKey (key : Choice → ℚ) (best : Choice) : List Choice → Choice
  | [] => best
  | c :: cs => maxByKey key (if key best < key c then c else best) cs

/-- From `models.py`, `Question.get_max_choice`: `(None, 0)` when the aggregate vote
total is `NULL` or `0` (`if not total`), otherwise the text and `votes / total`
share of `max(choices, key=lambda c: c.votes / total)`.  The inner `[]` branch
is unreachable: a `NULL` total already covers the empty choice set. -/
def get_max_choice (s : Store) (q : Question) : Option String × ℚ :=
  match sumVotes s q.id with
  | none => (none, 0)
  | some t =>
    if t = 0 then (none, 0)
    else
      match choicesOf s q.id with
      | [] => (none, 0)
      | c :: rest =>
        (some (maxByKey (fun x => (x.votes : ℚ) / (t : ℚ)) c rest).choice_text,
         ((maxByKey (fun x => (x.votes : ℚ) / (t : ℚ)) c rest).votes : ℚ) / (t : ℚ))

/-- Embeds `Choice.objects.aggregate(Sum('votes'))['votes__sum']` in
`StatisticsView.get_context_data`: `NULL` when there are no choice rows. -/
def aggregateAllVotes (s : Store) : Option Int :=
  match s.choices with
  | [] => none
  | cs => some (totalVotes cs)

/-- The ranking key of `annotate(total_votes_count=Sum('choice__votes'))`.
Modelled from the spec: the `LEFT JOIN` aggregate is `NULL` for a question with
no choices, and how `NULL` orders against present totals is decided by the
database backend configured outside `src/`; spec §4.4 fixes the policy — such
a question "must be treated as having 0 total votes when ranked". -/
def questionKey (s : Store) (q : Question) : Int :=
  (sumVotes s q.id).getD 0

/-- The row order produced by `order_by('-total_votes_count')`.
Modelled from the spec: SQL leaves the relative order of rows tied on the sort
key unspecified; spec §4.4 fixes ties as ascending-identity order ("first max /
last min by id order").  So: ranking key descending, ties broken by id
ascending. -/
def rankLE (s : Store) (a b : Question) : Prop :=
  questionKey s b < questionKey s a ∨
    (questionKey s a = questionKey s b ∧ a.id ≤ b.id)

instance (s : Store) : DecidableRel (rankLE s) := fun a b => by
  unfold rankLE
  infer_instance

instance (s : Store) : IsTotal Question (rankLE s) :=
  ⟨by intro a b; unfold rankLE; omega⟩

instance (s : Store) : IsTrans Question (rankLE s) :=
  ⟨by intro a b c hab hbc; unfold rankLE at *; omega⟩

lemma rankLE_refl (s : Store) (a : Question) : rankLE s a a :=
  Or.inr ⟨rfl, le_refl _⟩

/-- Embeds `Question.objects.order_by('id')` (the `AllView` queryset, `listAll`). -/
def idLE (a b : Question) : Prop := a.id ≤ b.id

instance : DecidableRel idLE := fun a b => by
  unfold idLE
  infer_instance

instance : IsTotal Question idLE := ⟨fun a b => Nat.le_total a.id b.id⟩

instance : IsTrans Question idLE := ⟨fun _ _ _ => Nat.le_trans⟩

/-- Interface `listAll()`: all questions ordered by ascending identity. -/
def listAll (s : Store) : List Question :=
  List.insertionSort idLE s.questions

/-- The annotated, descending-ordered queryset of the statistics view. -/
def rankedQuestions (s : Store) : List Question :=
  List.insertionSort (rankLE s) s.questions

/-- The context computed by `StatisticsView.get_context_data`. -/
structure Stats where
  questions_count : Nat
  choices_count : Nat
  votes_count : Int
  votes_average_by_question : ℚ
  best_question : Option Question
  worst_question : Option Question
  last_question : Option Question
deriving Repr, DecidableEq

/-- From `views.py`, `StatisticsView.get_context_data`: global counts, the average
votes per question (0 when there are no questions), and the extremes of the
queryset annotated with each question's vote total, ordered descending —
`first()` is `best_question`, `last()` is `worst_question`. -/
def computeStatistics (s : Store) : Stats :=
  { questions_count := s.questions.length
    choices_count := s.choices.length
    votes_count := (aggregateAllVotes s).getD 0
    votes_average_by_question :=
      if 0 < s.questions.length then
        (((aggregateAllVotes s).getD 0 : Int) : ℚ) / (s.questions.length : ℚ)
      else 0
    best_question := (rankedQuestions s).head?
    worst_question := (rankedQuestions s).getLast?
    last_question := (listAll s).getLast? }

/-- The two failure modes of the vote endpoint (`views.py`, `vote`):
`NotFound` is the 404 raised by `get_object_or_404`; `InvalidSelection` is the
re-rendered vote form produced by the `except (KeyError, Choice.DoesNotExist)`
branch. -/
inductive VoteError where
  | NotFound
  | InvalidSelection
deriving Repr, DecidableEq

/-- The row update `selected_choice.votes = F("votes") + 1; selected_choice.save()`:
the stored row whose primary key is `cid` gets its `votes` column incremented by
one, server-side. -/
def bumpVotes (cid : Nat) (cs : List Choice) : List Choice :=
  cs.map (fun c => if c.id == cid then { c with votes := c.votes + 1 } else c)

/-- From `views.py`, `vote(request, question_id)`.  `postChoice` is
`request.POST["choice"]` (`none` models the missing key, raising `KeyError`);
`question.choice_set.get(pk=...)` raises `Choice.DoesNotExist` when the id does
not belong to the question's choice set. -/
def applyVote (s : Store) (qid : Nat) (postChoice : Option Nat) :
    Except VoteError Store :=
  match getQuestion s qid with
  | none => .error .NotFound
  | some q =>
    match postChoice with
    | none => .error .InvalidSelection
    | some cid =>
      match (choicesOf s q.id).find? (fun c => c.id == cid) with
      | none => .error .InvalidSelection
      | some _ => .ok { s with choices := bumpVotes cid s.choices }

/-- Field errors of `QuestionForm` (`forms.py`): `question_text` is required
and capped at 200 code points (the configured French messages are abbreviated
to stable identifiers here).  Modelled from the spec for the framework's field
validation: "question text non-empty and ≤200 code points". -/
def questionErrors (t : String) : List String :=
  (if t = "" then ["question_required"] else []) ++
  (if 200 < t.length then ["question_too_long"] else [])

/-- The submitted choice entries with non-empty text: the entries the formset
counts toward `min_num` and saves. -/
def nonEmptyChoices (ctexts : List String) : List String :=
  ctexts.filter (fun t => t != "")

/-- Field and formset errors of `ChoiceFormSet` (`forms.py`:
`min_num=3, validate_min=True`; `choice_text` capped at 200 code points).
Modelled from the spec for the formset internals: "at least the configured
minimum number of choice entries with non-empty text, each ≤200 code points". -/
def choiceErrors (ctexts : List String) : List String :=
  ((nonEmptyChoices ctexts).filter (fun t => decide (200 < t.length))).map
    (fun _ => "choice_too_long") ++
  (if (nonEmptyChoices ctexts).length < 3 then ["too_few_choices"] else [])

/-- Auto-increment primary keys: the next key is one past the largest in use. -/
def nextQuestionId (s : Store) : Nat :=
  (s.questions.map (fun q => q.id)).foldr max 0 + 1

def nextChoiceId (s : Store) : Nat :=
  (s.choices.map (fun c => c.id)).foldr max 0 + 1

/-- Embeds `formset.save()` bound to question `qid`: one `Choice` row per submitted
non-empty text, with the default `votes = 0`. -/
def newChoices (base qid : Nat) : List String → List Choice
  | [] => []
  | t :: ts => ⟨base, qid, t, 0⟩ :: newChoices (base + 1) qid ts

/-- The re-rendered creation form: the bound field values plus the field-level
error messages. -/
structure FormState where
  question_text : String
  choice_texts : List String
  errors : List String
deriving Repr, DecidableEq

/-- From `views.py`, `poll` (POST path).  `QuestionForm` is validated first; when it
is invalid the view re-renders with a fresh empty `ChoiceFormSet()`, so only
the submitted question text is re-presented.  When the question form is valid
but the formset is not, the bound formset is re-rendered.  Only when both
validate is anything persisted: the question with `pub_date = now` and one
choice row per non-empty submitted text.  The pair returned is (store after
the request, re-rendered form state; `none` on success/redirect). -/
def createPoll (s : Store) (qtext : String) (ctexts : List String) (now : Int) :
    Store × Option FormState :=
  if questionErrors qtext ≠ [] then
    (s, some ⟨qtext, [], questionErrors qtext⟩)
  else if choiceErrors ctexts ≠ [] then
    (s, some ⟨qtext, ctexts, choiceErrors ctexts⟩)
  else
    ({ questions := s.questions ++ [⟨nextQuestionId s, qtext, now⟩],
       choices := s.choices ++
         newChoices (nextChoiceId s) (nextQuestionId s) (nonEmptyChoices ctexts) },
     none)

/-- The stores reachable by the mutating operations of the core, starting from
an empty database. -/
inductive Reachable : Store → Prop where
  | init : Reachable ⟨[], []⟩
  | create (s : Store) (qtext : String) (ctexts : List String) (now : Int) :
      Reachable s → Reachable (createPoll s qtext ctexts now).1
  | vote (s s' : Store) (qid : Nat) (pc : Option Nat) :
      Reachable s → applyVote s qid pc = .ok s' → Reachable s'

/-- Unique primary keys make rows of a well-formed store equal once their ids
coincide. -/
lemma choice_eq_of_id_eq {s : Store} (hwf : WF s) {x y : Choice}
    (hx : x ∈ s.choices) (hy : y ∈ s.choices) (hid : x.id = y.id) : x = y :=
  List.inj_on_of_nodup_map hwf.cIds hx hy hid

lemma question_eq_of_id_eq {s : Store} (hwf : WF s) {x y : Question}
    (hx : x ∈ s.questions) (hy : y ∈ s.questions) (hid : x.id = y.id) : x = y :=
  List.inj_on_of_nodup_map hwf.qIds hx hy hid

lemma getQuestion_id {s : Store} {qid : Nat} {q : Question}
    (h : getQuestion s qid = some q) : q.id = qid := by
  have := List.find?_some h
  simpa using this

lemma mem_choicesOf {s : Store} {qid : Nat} {c : Choice} :
    c ∈ choicesOf s qid ↔ c ∈ s.choices ∧ c.question = qid := by
  simp [choicesOf]

/-- C1: `applyVote` fails with `NotFound` exactly when the question id does not
identify an existing `Question`; when the question exists but the submitted
choice identity is absent from the request or does not identify a `Choice`
owned by that question, it fails with the distinct error `InvalidSelection`
(the re-rendered vote form), not with a crash. -/
theorem applyVote_error_taxonomy (s : Store) (qid : Nat) (pc : Option Nat) :
    (getQuestion s qid = none → applyVote s qid pc = .error .NotFound) ∧
    (∀ q, getQuestion s qid = some q →
      (pc = none ∨ ∃ cid, pc = some cid ∧ ∀ c ∈ choicesOf s qid, c.id ≠ cid) →
      applyVote s qid pc = .error .InvalidSelection) := by
  constructor
  · intro h
    simp [applyVote, h]
  · intro q hq hbad
    have hid : q.id = qid := getQuestion_id hq
    rcases hbad with hnone | ⟨cid, hcid, hnotmem⟩
    · simp [applyVote, hq, hnone]
    · have hfind : (choicesOf s q.id).find? (fun c => c.id == cid) = none := by
        rw [List.find?_eq_none]
        intro c hc
        simpa using hnotmem c (hid ▸ hc)
      simp [applyVote, hq, hcid, hfind]

/-- C1 witness: a concrete store on which both failure modes fire. -/
theorem applyVote_error_taxonomy_witness :
    applyVote ⟨[⟨1, "q", 0⟩], [⟨1, 1, "a", 0⟩]⟩ 99 (some 1) = .error .NotFound ∧
    applyVote ⟨[⟨1, "q", 0⟩], [⟨1, 1, "a", 0⟩]⟩ 1 (some 7) = .error .InvalidSelection :=
  ⟨(applyVote_error_taxonomy ⟨[⟨1, "q", 0⟩], [⟨1, 1, "a", 0⟩]⟩ 99 (some 1)).1 (by decide),
   (applyVote_error_taxonomy ⟨[⟨1, "q", 0⟩], [⟨1, 1, "a", 0⟩]⟩ 1 (some 7)).2
     ⟨1, "q", 0⟩ (by decide) (Or.inr ⟨7, rfl, by decide⟩)⟩

/-- C2: a successful `applyVote` touches exactly one row: the selected `Choice`
(owned by the given question) has its `votes` increased by exactly 1 with every
other field kept, every other `Choice` row and every `Question` row are
unchanged, and no row is inserted or deleted. -/
theorem applyVote_frame (s : Store) (hwf : WF s) (qid cid : Nat) (s' : Store)
    (h : applyVote s qid (some cid) = .ok s') :
    s'.questions = s.questions ∧
    s'.choices.length = s.choices.length ∧
    ∃ c ∈ s.choices, c.id = cid ∧ c.question = qid ∧
      Choice.mk c.id c.question c.choice_text (c.votes + 1) ∈ s'.choices ∧
      (∀ x ∈ s.choices, x ≠ c → x ∈ s'.choices) ∧
      (∀ x ∈ s'.choices, x ∈ s.choices ∨
        x = Choice.mk c.id c.question c.choice_text (c.votes + 1)) := by
  cases hq : getQuestion s qid with
  | none => simp [applyVote, hq] at h
  | some q =>
    simp only [applyVote, hq] at h
    cases hf : (choicesOf s q.id).find? (fun c => c.id == cid) with
    | none => rw [hf] at h; exact absurd h (by simp)
    | some c =>
      rw [hf] at h
      have hs' : s' = { s with choices := bumpVotes cid s.choices } := by
        cases h; rfl
      have hqid : q.id = qid := getQuestion_id hq
      have hcmem : c ∈ choicesOf s q.id := List.mem_of_find?_eq_some hf
      have hcid : c.id = cid := by simpa using List.find?_some hf
      have hcs : c ∈ s.choices ∧ c.question = q.id := mem_choicesOf.mp hcmem
      subst hs'
      refine ⟨rfl, by simp [bumpVotes], c, hcs.1, hcid, hqid ▸ hcs.2, ?_, ?_, ?_⟩
      · show Choice.mk c.id c.question c.choice_text (c.votes + 1) ∈
          bumpVotes cid s.choices
        have : Choice.mk c.id c.question c.choice_text (c.votes + 1) =
            (fun x => if x.id == cid then { x with votes := x.votes + 1 } else x) c := by
          simp [hcid]
        rw [this]
        exact List.mem_map_of_mem _ hcs.1
      · intro x hx hne
        have hxid : ¬ x.id = cid := by
          intro hxe
          exact hne (choice_eq_of_id_eq hwf hx hcs.1 (hxe.trans hcid.symm))
        have hmem := List.mem_map_of_mem
          (fun y => if y.id == cid then { y with votes := y.votes + 1 } else y) hx
        simpa [bumpVotes, hxid] using hmem
      · intro x hx
        rcases List.mem_map.mp hx with ⟨y, hy, hxy⟩
        by_cases hyid : y.id = cid
        · right
          have hyc : y = c := choice_eq_of_id_eq hwf hy hcs.1 (hyid.trans hcid.symm)
          subst hyc
          rw [← hxy]
          simp [hcid]
        · left
          simp [hyid] at hxy
          exact hxy ▸ hy

/-- Shared characterization of `get_choices`, collapsing the `NULL`/`0`
aggregate plumbing into a single per-choice formula. -/
lemma get_choices_eq (s : Store) (q : Question) :
    get_choices s q = (choicesOf s q.id).map (fun c =>
      (c.choice_text, c.votes,
        if totalVotes (choicesOf s q.id) = 0 then (0 : ℚ)
        else ((c.votes : ℚ) / ((totalVotes (choicesOf s q.id) : Int) : ℚ)) * 100)) := by
  unfold get_choices sumVotes
  cases hcs : choicesOf s q.id with
  | nil => simp
  | cons c cs =>
    by_cases ht : totalVotes (c :: cs) = 0 <;> simp [ht]

lemma sum_map_votes_mul (l : List Choice) (k : ℚ) :
    (l.map (fun c => (c.votes : ℚ) * k)).sum = ((totalVotes l : Int) : ℚ) * k := by
  induction l with
  | nil => simp [totalVotes]
  | cons c t ih =>
    simp only [totalVotes, List.map_cons, List.sum_cons] at ih ⊢
    push_cast
    rw [ih]
    push_cast
    ring

/-- C3: `get_choices` returns one `(text, votes, percentage)` triple per owned
choice, in persistence order; when the question's vote total is zero or
undefined (no choices, or all votes zero) every percentage is the literal 0,
otherwise each percentage is exactly `votes / total * 100` with no rounding.
The operation reads the store and writes nothing (it is a pure function of the
store here). -/
theorem get_choices_spec (s : Store) (q : Question) :
    get_choices s q = (choicesOf s q.id).map (fun c =>
      (c.choice_text, c.votes,
        if totalVotes (choicesOf s q.id) = 0 then (0 : ℚ)
        else ((c.votes : ℚ) / ((totalVotes (choicesOf s q.id) : Int) : ℚ)) * 100)) :=
  get_choices_eq s q

/-- C8: for a question with at least one choice and a positive vote total, the
returned percentages sum to exactly 100 (exact rational arithmetic). -/
theorem get_choices_percentages_sum (s : Store) (q : Question)
    (h1 : choicesOf s q.id ≠ [])
    (h2 : 0 < totalVotes (choicesOf s q.id)) :
    ((get_choices s q).map (fun r => r.2.2)).sum = 100 := by
  have hne : totalVotes (choicesOf s q.id) ≠ 0 := ne_of_gt h2
  have hq : ((totalVotes (choicesOf s q.id) : Int) : ℚ) ≠ 0 :=
    Int.cast_ne_zero.mpr hne
  rw [get_choices_eq, List.map_map]
  have hfun : ((fun r : String × Int × ℚ => r.2.2) ∘ (fun c =>
      (c.choice_text, c.votes,
        if totalVotes (choicesOf s q.id) = 0 then (0 : ℚ)
        else ((c.votes : ℚ) / ((totalVotes (choicesOf s q.id) : Int) : ℚ)) * 100)))
      = (fun c : Choice =>
          (c.votes : ℚ) * (100 / ((totalVotes (choicesOf s q.id) : Int) : ℚ))) := by
    funext c
    simp [hne]
    ring
  rw [hfun, sum_map_votes_mul]
  field_simp

/-- C8 witness: the spec's Red 3 / Blue 1 example sums to 100. -/
theorem get_choices_percentages_sum_witness :
    ((get_choices ⟨[⟨1, "color", 0⟩], [⟨1, 1, "Red", 3⟩, ⟨2, 1, "Blue", 1⟩]⟩
        ⟨1, "color", 0⟩).map (fun r => r.2.2)).sum = 100 :=
  get_choices_percentages_sum ⟨[⟨1, "color", 0⟩], [⟨1, 1, "Red", 3⟩, ⟨2, 1, "Blue", 1⟩]⟩
    ⟨1, "color", 0⟩ (by decide) (by decide)

/-- The fold behind Python's `max` selects an element of the list (with the
seed prepended) such that everything strictly before it has a strictly smaller
key and everything after it has a key no larger: the first occurrence of the
maximal key. -/
lemma maxByKey_first (key : Choice → ℚ) :
    ∀ (l : List Choice) (b : Choice),
      ∃ l1 l2, b :: l = l1 ++ maxByKey key b l :: l2 ∧
        (∀ x ∈ l1, key x < key (maxByKey key b l)) ∧
        (∀ x ∈ l2, key x ≤ key (maxByKey key b l)) := by
  intro l
  induction l with
  | nil =>
    intro b
    exact ⟨[], [], rfl, by simp, by simp⟩
  | cons c t ih =>
    intro b
    by_cases hcb : key b < key c
    · have hred : maxByKey key b (c :: t) = maxByKey key c t := by
        simp [maxByKey, hcb]
      rw [hred]
      obtain ⟨l1, l2, hdec, hlt, hle⟩ := ih c
      have hcr : key c ≤ key (maxByKey key c t) := by
        cases l1 with
        | nil =>
          simp only [List.nil_append] at hdec
          injection hdec with hc _
          exact le_of_eq (congrArg key hc)
        | cons a l1' =>
          simp only [List.cons_append] at hdec
          injection hdec with hc _
          have := hlt a (List.mem_cons_self a l1')
          rw [← hc] at this
          exact le_of_lt this
      refine ⟨b :: l1, l2, ?_, ?_, hle⟩
      · simpa using congrArg (List.cons b) hdec
      · intro x hx
        rcases List.mem_cons.mp hx with rfl | hx
        · exact lt_of_lt_of_le hcb hcr
        · exact hlt x hx
    · have hred : maxByKey key b (c :: t) = maxByKey key b t := by
        simp [maxByKey, hcb]
      rw [hred]
      obtain ⟨l1, l2, hdec, hlt, hle⟩ := ih b
      cases l1 with
      | nil =>
        simp only [List.nil_append] at hdec
        injection hdec with hb ht
        refine ⟨[], c :: t, ?_, by simp, ?_⟩
        · simp only [List.nil_append]
          rw [← hb]
        · intro x hx
          rcases List.mem_cons.mp hx with rfl | hx
          · rw [← hb]
            exact le_of_not_lt hcb
          · exact hle x (ht ▸ hx)
      | cons a l1' =>
        simp only [List.cons_append] at hdec
        injection hdec with hb ht
        have hblt : key b < key (maxByKey key b t) := by
          have := hlt a (List.mem_cons_self a l1')
          rw [← hb] at this
          exact this
        refine ⟨b :: c :: l1', l2, ?_, ?_, hle⟩
        · simp only [List.cons_append]
          conv_lhs => rw [ht]
        · intro x hx
          rcases List.mem_cons.mp hx with rfl | hx
          · exact hblt
          rcases List.mem_cons.mp hx with rfl | hx
          · exact lt_of_le_of_lt (le_of_not_lt hcb) hblt
          · exact hlt x (List.mem_cons_of_mem a hx)

/-- C4: `get_max_choice` returns "no choice" (`(none, 0)`, not an error) when
the question has no choices or its vote total is zero; otherwise it returns the
text and `votes / total` share of the choice with the maximal share, picking
the first occurrence in persistence order among ties (being a pure function,
repeated calls on the same store return the same winner). -/
theorem get_max_choice_spec (s : Store) (q : Question) :
    (choicesOf s q.id = [] ∨ totalVotes (choicesOf s q.id) = 0 →
      get_max_choice s q = (none, 0)) ∧
    (totalVotes (choicesOf s q.id) ≠ 0 →
      ∃ m l1 l2, choicesOf s q.id = l1 ++ m :: l2 ∧
        get_max_choice s q =
          (some m.choice_text, (m.votes : ℚ) / (totalVotes (choicesOf s q.id) : ℚ)) ∧
        (∀ x ∈ l1, (x.votes : ℚ) / (totalVotes (choicesOf s q.id) : ℚ) <
          (m.votes : ℚ) / (totalVotes (choicesOf s q.id) : ℚ)) ∧
        (∀ x ∈ l2, (x.votes : ℚ) / (totalVotes (choicesOf s q.id) : ℚ) ≤
          (m.votes : ℚ) / (totalVotes (choicesOf s q.id) : ℚ))) := by
  constructor
  · intro h
    rcases h with hnil | ht0
    · unfold get_max_choice sumVotes
      rw [hnil]
    · cases hcs : choicesOf s q.id with
      | nil =>
        unfold get_max_choice sumVotes
        rw [hcs]
      | cons c rest =>
        rw [hcs] at ht0
        unfold get_max_choice sumVotes
        rw [hcs]
        simp [ht0]
  · intro ht
    cases hcs : choicesOf s q.id with
    | nil =>
      rw [hcs] at ht
      simp [totalVotes] at ht
    | cons c rest =>
      rw [hcs] at ht
      obtain ⟨l1, l2, hdec, hlt, hle⟩ :=
        maxByKey_first (fun x => (x.votes : ℚ) / (totalVotes (c :: rest) : ℚ)) rest c
      refine ⟨maxByKey (fun x => (x.votes : ℚ) / (totalVotes (c :: rest) : ℚ)) c rest,
        l1, l2, hdec, ?_, hlt, hle⟩
      unfold get_max_choice sumVotes
      rw [hcs]
      simp [ht]

/-- C4 witness: a question whose sole choice has zero votes yields "no choice". -/
theorem get_max_choice_spec_witness :
    get_max_choice ⟨[⟨1, "q", 0⟩], [⟨1, 1, "a", 0⟩]⟩ ⟨1, "q", 0⟩ = (none, 0) :=
  (get_max_choice_spec ⟨[⟨1, "q", 0⟩], [⟨1, 1, "a", 0⟩]⟩ ⟨1, "q", 0⟩).1
    (Or.inr (by decide))

/-- C2 witness: a concrete successful vote on a two-choice question. -/
theorem applyVote_frame_witness :
    (⟨[⟨1, "q", 0⟩], [⟨1, 1, "a", 4⟩, ⟨2, 1, "b", 8⟩]⟩ : Store).questions =
      (⟨[⟨1, "q", 0⟩], [⟨1, 1, "a", 4⟩, ⟨2, 1, "b", 7⟩]⟩ : Store).questions :=
  (applyVote_frame ⟨[⟨1, "q", 0⟩], [⟨1, 1, "a", 4⟩, ⟨2, 1, "b", 7⟩]⟩
    ⟨by decide, by decide, by decide⟩ 1 2
    ⟨[⟨1, "q", 0⟩], [⟨1, 1, "a", 4⟩, ⟨2, 1, "b", 8⟩]⟩ (by rfl)).1

/-- The head of a list sorted by a reflexive relation is related to every
member. -/
lemma head_rel_of_sorted {α : Type} {r : α → α → Prop} [IsTrans α r]
    {l : List α} (hs : List.Sorted r l) (hne : l ≠ []) (hrefl : ∀ a, r a a) :
    ∀ x ∈ l, r (l.head hne) x := by
  cases l with
  | nil => exact absurd rfl hne
  | cons a t =>
    intro x hx
    rcases List.mem_cons.mp hx with rfl | hx
    · exact hrefl x
    · exact List.rel_of_sorted_cons hs x hx

/-- Every member of a list sorted by a reflexive relation is related to its
last element. -/
lemma rel_getLast_of_sorted {α : Type} {r : α → α → Prop} [IsTrans α r]
    (hrefl : ∀ a, r a a) :
    ∀ (l : List α), List.Sorted r l → ∀ (hne : l ≠ []) (x : α), x ∈ l →
      r x (l.getLast hne) := by
  intro l
  induction l with
  | nil => intro _ hne; exact absurd rfl hne
  | cons a t ih =>
    intro hs hne x hx
    cases t with
    | nil =>
      rcases List.mem_cons.mp hx with rfl | hx
      · exact hrefl x
      · simp at hx
    | cons b t' =>
      have hne' : b :: t' ≠ [] := by simp
      rw [List.getLast_cons hne']
      rcases List.mem_cons.mp hx with rfl | hx
      · exact List.rel_of_sorted_cons hs _ (List.getLast_mem hne')
      · exact ih hs.of_cons hne' x hx

/-- C5: in `computeStatistics`, a question with the maximal ranking total and,
among the questions tied at that total, the least identity, is `best_question`
(the first row of the descending order); a question with the minimal total and
the greatest identity among the tied ones is `worst_question` (the last row).
With exactly two questions of equal totals this makes the lower-id one best
and the higher-id one worst. -/
theorem computeStatistics_tie_break (s : Store) (hwf : WF s) :
    (∀ q ∈ s.questions,
      (∀ p ∈ s.questions, questionKey s p ≤ questionKey s q) →
      (∀ p ∈ s.questions, questionKey s p = questionKey s q → q.id ≤ p.id) →
      (computeStatistics s).best_question = some q) ∧
    (∀ q ∈ s.questions,
      (∀ p ∈ s.questions, questionKey s q ≤ questionKey s p) →
      (∀ p ∈ s.questions, questionKey s p = questionKey s q → p.id ≤ q.id) →
      (computeStatistics s).worst_question = some q) := by
  constructor
  · intro q hq hmax hfirst
    have hql : q ∈ rankedQuestions s := by
      unfold rankedQuestions
      exact (List.mem_insertionSort (rankLE s)).mpr hq
    have hne : rankedQuestions s ≠ [] := List.ne_nil_of_mem hql
    have hsorted : List.Sorted (rankLE s) (rankedQuestions s) :=
      List.sorted_insertionSort (rankLE s) s.questions
    set h := (rankedQuestions s).head hne with hh
    have hhl : h ∈ rankedQuestions s := List.head_mem hne
    have hhs : h ∈ s.questions := (List.mem_insertionSort (rankLE s)).mp hhl
    have hrel : rankLE s h q :=
      head_rel_of_sorted hsorted hne (rankLE_refl s) q hql
    have hkey : questionKey s h = questionKey s q ∧ h.id ≤ q.id := by
      rcases hrel with hlt | heq
      · exact absurd hlt (not_lt.mpr (hmax h hhs))
      · exact heq
    have hid : h.id = q.id :=
      le_antisymm hkey.2 (hfirst h hhs hkey.1)
    have : h = q := question_eq_of_id_eq hwf hhs hq hid
    show (rankedQuestions s).head? = some q
    rw [List.head?_eq_head hne, ← hh, this]
  · intro q hq hmin hlast
    have hql : q ∈ rankedQuestions s := by
      unfold rankedQuestions
      exact (List.mem_insertionSort (rankLE s)).mpr hq
    have hne : rankedQuestions s ≠ [] := List.ne_nil_of_mem hql
    have hsorted : List.Sorted (rankLE s) (rankedQuestions s) :=
      List.sorted_insertionSort (rankLE s) s.questions
    set w := (rankedQuestions s).getLast hne with hw
    have hwl : w ∈ rankedQuestions s := List.getLast_mem hne
    have hws : w ∈ s.questions := (List.mem_insertionSort (rankLE s)).mp hwl
    have hrel : rankLE s q w :=
      rel_getLast_of_sorted (rankLE_refl s) (rankedQuestions s) hsorted hne q hql
    have hkey : questionKey s q = questionKey s w ∧ q.id ≤ w.id := by
      rcases hrel with hlt | heq
      · exact absurd hlt (not_lt.mpr (hmin w hws))
      · exact heq
    have hid : w.id = q.id :=
      le_antisymm (hlast w hws hkey.1.symm) hkey.2
    have : w = q := question_eq_of_id_eq hwf hws hq hid
    show (rankedQuestions s).getLast? = some q
    rw [List.getLast?_eq_getLast (rankedQuestions s) hne, ← hw, this]

/-- C5 witness: two questions totalling 10 votes each — the lower-id question
is `best_question` and the higher-id one is `worst_question`. -/
theorem computeStatistics_tie_break_witness :
    (computeStatistics ⟨[⟨1, "A", 0⟩, ⟨2, "B", 0⟩],
        [⟨1, 1, "a", 10⟩, ⟨2, 2, "b", 10⟩]⟩).best_question = some ⟨1, "A", 0⟩ ∧
    (computeStatistics ⟨[⟨1, "A", 0⟩, ⟨2, "B", 0⟩],
        [⟨1, 1, "a", 10⟩, ⟨2, 2, "b", 10⟩]⟩).worst_question = some ⟨2, "B", 0⟩ :=
  ⟨(computeStatistics_tie_break ⟨[⟨1, "A", 0⟩, ⟨2, "B", 0⟩],
        [⟨1, 1, "a", 10⟩, ⟨2, 2, "b", 10⟩]⟩ ⟨by decide, by decide, by decide⟩).1
      ⟨1, "A", 0⟩ (by decide) (by decide) (by decide),
   (computeStatistics_tie_break ⟨[⟨1, "A", 0⟩, ⟨2, "B", 0⟩],
        [⟨1, 1, "a", 10⟩, ⟨2, 2, "b", 10⟩]⟩ ⟨by decide, by decide, by decide⟩).2
      ⟨2, "B", 0⟩ (by decide) (by decide) (by decide)⟩

/-- C6: a question owning zero choices ranks with key 0 — exactly as a
question whose votes sum to 0 — and when it is the sole question the ranking
does not crash: it is returned as both `best_question` and `worst_question`. -/
theorem zero_choice_question_ranking (s : Store) (q : Question)
    (hnone : choicesOf s q.id = []) :
    questionKey s q = 0 ∧
    (s.questions = [q] →
      (computeStatistics s).best_question = some q ∧
      (computeStatistics s).worst_question = some q) := by
  have hk : questionKey s q = 0 := by
    unfold questionKey sumVotes
    rw [hnone]
    rfl
  refine ⟨hk, ?_⟩
  intro hsq
  unfold computeStatistics rankedQuestions
  rw [hsq]
  simp

/-- C6 witness: a store whose only question has no choices. -/
theorem zero_choice_question_ranking_witness :
    (computeStatistics ⟨[⟨1, "q", 0⟩], []⟩).best_question = some ⟨1, "q", 0⟩ :=
  ((zero_choice_question_ranking ⟨[⟨1, "q", 0⟩], []⟩ ⟨1, "q", 0⟩ rfl).2 rfl).1

lemma questionErrors_eq_nil (t : String) :
    questionErrors t = [] ↔ (t ≠ "" ∧ t.length ≤ 200) := by
  unfold questionErrors
  by_cases h1 : t = "" <;> by_cases h2 : 200 < t.length <;>
    simp [h1, h2] <;> omega

lemma choiceErrors_eq_nil (cts : List String) :
    choiceErrors cts = [] ↔
      (3 ≤ (nonEmptyChoices cts).length ∧
        ∀ t ∈ nonEmptyChoices cts, t.length ≤ 200) := by
  unfold choiceErrors
  rw [List.append_eq_nil, List.map_eq_nil_iff, List.filter_eq_nil_iff]
  constructor
  · rintro ⟨hlen, hmin⟩
    constructor
    · by_contra hlt
      simp at hlt
      simp [hlt] at hmin
    · intro t ht
      have := hlen t ht
      simpa using this
  · rintro ⟨h3, hle⟩
    constructor
    · intro t ht
      simpa using hle t ht
    · simp
      omega

lemma le_foldr_max (l : List Nat) (x : Nat) (hx : x ∈ l) :
    x ≤ l.foldr max 0 := by
  induction l with
  | nil => cases hx
  | cons a t ih =>
    simp only [List.foldr_cons]
    rcases List.mem_cons.mp hx with rfl | hx
    · exact le_max_left _ _
    · exact le_trans (ih hx) (le_max_right _ _)

/-- Fresh question ids are strictly larger than every persisted question id. -/
lemma nextQuestionId_gt {s : Store} {q : Question} (hq : q ∈ s.questions) :
    q.id < nextQuestionId s := by
  unfold nextQuestionId
  have := le_foldr_max (s.questions.map (fun p => p.id)) q.id
    (List.mem_map_of_mem _ hq)
  omega

lemma newChoices_mem (qid : Nat) :
    ∀ (base : Nat) (ts : List String) (c : Choice), c ∈ newChoices base qid ts →
      c.question = qid ∧ c.votes = 0 := by
  intro base ts
  induction ts generalizing base with
  | nil =>
    intro c hc
    simp [newChoices] at hc
  | cons t ts ih =>
    intro c hc
    simp only [newChoices] at hc
    rcases List.mem_cons.mp hc with rfl | hc
    · exact ⟨rfl, rfl⟩
    · exact ih (base + 1) c hc

lemma newChoices_length (qid : Nat) :
    ∀ (base : Nat) (ts : List String),
      (newChoices base qid ts).length = ts.length := by
  intro base ts
  induction ts generalizing base with
  | nil => rfl
  | cons t ts ih => simp [newChoices, ih]

set_option maxRecDepth 16384 in
/-- C7 counterexample to the claim as stated: (a) a submission with a valid
question text and exactly 3 non-empty choice texts does not succeed when one
choice text exceeds 200 code points; (b) when the question text fails
validation, the re-rendered state does not carry the submitted choice texts
(the view rebuilds an empty formset), so the full submitted form state is not
returned. -/
theorem createPoll_claim_counterexample :
    (createPoll ⟨[], []⟩ "Q" [String.mk (List.replicate 201 'a'), "b", "c"] 0).2 ≠
      none ∧
    (createPoll ⟨[], []⟩ "" ["a", "b", "c"] 0).2 =
      some ⟨"", [], ["question_required"]⟩ := by
  refine ⟨by decide, by decide⟩

/-- C7 (amended): a submission failing validation — empty or over-200 question
text, fewer than 3 non-empty choice texts, or a non-empty choice text over 200
code points — persists neither the question nor any choice and re-renders the
submitted question text with field-level errors (the submitted choice texts
are re-presented only when the question text itself was valid); a valid
question text with exactly 3 non-empty choice texts, each within 200 code
points, succeeds, and `listAll` afterwards includes the new question owning
exactly 3 choices, each with `votes = 0`. -/
theorem createPoll_validation (s : Store) (hwf : WF s) (qtext : String)
    (ctexts : List String) (now : Int) :
    ((qtext = "" ∨ 200 < qtext.length ∨ (nonEmptyChoices ctexts).length < 3 ∨
        (∃ t ∈ nonEmptyChoices ctexts, 200 < t.length)) →
      (createPoll s qtext ctexts now).1 = s ∧
      ∃ fs, (createPoll s qtext ctexts now).2 = some fs ∧
        fs.question_text = qtext ∧ fs.errors ≠ [] ∧
        (qtext ≠ "" → qtext.length ≤ 200 → fs.choice_texts = ctexts)) ∧
    (qtext ≠ "" → qtext.length ≤ 200 →
      (nonEmptyChoices ctexts).length = 3 →
      (∀ t ∈ nonEmptyChoices ctexts, t.length ≤ 200) →
      (createPoll s qtext ctexts now).2 = none ∧
      ∃ q, q ∈ listAll (createPoll s qtext ctexts now).1 ∧
        q.question_text = qtext ∧ q.pub_date = now ∧
        (choicesOf (createPoll s qtext ctexts now).1 q.id).length = 3 ∧
        ∀ c ∈ choicesOf (createPoll s qtext ctexts now).1 q.id, c.votes = 0) := by
  constructor
  · intro hbad
    by_cases hq : questionErrors qtext = []
    · have hqv : qtext ≠ "" ∧ qtext.length ≤ 200 := (questionErrors_eq_nil qtext).mp hq
      have hc : choiceErrors ctexts ≠ [] := by
        intro hc0
        have := (choiceErrors_eq_nil ctexts).mp hc0
        rcases hbad with h | h | h | ⟨t, ht, htl⟩
        · exact hqv.1 h
        · omega
        · omega
        · exact absurd htl (by simpa using this.2 t ht)
      unfold createPoll
      rw [if_neg (not_not_intro hq), if_pos hc]
      exact ⟨rfl, ⟨qtext, ctexts, choiceErrors ctexts⟩, rfl, rfl, hc,
        fun _ _ => rfl⟩
    · unfold createPoll
      rw [if_pos hq]
      refine ⟨rfl, ⟨qtext, [], questionErrors qtext⟩, rfl, rfl, hq, ?_⟩
      intro hne hlen
      exact absurd ((questionErrors_eq_nil qtext).mpr ⟨hne, hlen⟩) hq
  · intro hne hlen h3 hclen
    have hq : questionErrors qtext = [] :=
      (questionErrors_eq_nil qtext).mpr ⟨hne, hlen⟩
    have hc : choiceErrors ctexts = [] :=
      (choiceErrors_eq_nil ctexts).mpr ⟨by omega, hclen⟩
    unfold createPoll
    rw [if_neg (not_not_intro hq), if_neg (not_not_intro hc)]
    refine ⟨rfl, ⟨nextQuestionId s, qtext, now⟩, ?_, rfl, rfl, ?_, ?_⟩
    · unfold listAll
      apply (List.mem_insertionSort idLE).mpr
      simp
    · show (choicesOf
        ⟨s.questions ++ [⟨nextQuestionId s, qtext, now⟩],
         s.choices ++ newChoices (nextChoiceId s) (nextQuestionId s)
           (nonEmptyChoices ctexts)⟩ (nextQuestionId s)).length = 3
      unfold choicesOf
      rw [List.filter_append]
      have hold : s.choices.filter
          (fun c => c.question == nextQuestionId s) = [] := by
        rw [List.filter_eq_nil_iff]
        intro c hcm
        obtain ⟨p, hp, hpe⟩ := hwf.fk c hcm
        have := nextQuestionId_gt hp
        simp only [beq_iff_eq]
        omega
      have hnew : (newChoices (nextChoiceId s) (nextQuestionId s)
          (nonEmptyChoices ctexts)).filter
            (fun c => c.question == nextQuestionId s) =
          newChoices (nextChoiceId s) (nextQuestionId s) (nonEmptyChoices ctexts) := by
        rw [List.filter_eq_self]
        intro c hcm
        simp [(newChoices_mem _ _ _ c hcm).1]
      rw [hold, hnew, List.nil_append, newChoices_length, h3]
    · intro c hcm
      have : c ∈ s.choices.filter (fun x => x.question == nextQuestionId s) ++
          (newChoices (nextChoiceId s) (nextQuestionId s)
            (nonEmptyChoices ctexts)).filter
              (fun x => x.question == nextQuestionId s) := by
        have := hcm
        unfold choicesOf at this
        rw [List.filter_append] at this
        exact this
      rcases List.mem_append.mp this with hm | hm
      · have hmf := List.mem_filter.mp hm
        obtain ⟨p, hp, hpe⟩ := hwf.fk c hmf.1
        have h1 := nextQuestionId_gt hp
        have h2 : c.question = nextQuestionId s := by simpa using hmf.2
        omega
      · exact (newChoices_mem _ _ _ c (List.mem_filter.mp hm).1).2

/-- C7 witness: a valid question with exactly three non-empty choice texts is
accepted (no re-rendered form state). -/
theorem createPoll_validation_witness :
    (createPoll ⟨[], []⟩ "Q" ["a", "b", "c"] 5).2 = none :=
  ((createPoll_validation ⟨[], []⟩ ⟨by decide, by decide, by decide⟩ "Q"
      ["a", "b", "c"] 5).2 (by decide) (by decide) (by decide) (by decide)).1

/-- Inversion: `applyVote` succeeds only on a present choice id, and the resulting store
is the original with that row's counter bumped. -/
lemma applyVote_ok_inv {s : Store} {qid : Nat} {pc : Option Nat} {s' : Store}
    (h : applyVote s qid pc = .ok s') :
    ∃ cid, pc = some cid ∧ s'.questions = s.questions ∧
      s'.choices = bumpVotes cid s.choices := by
  cases hq : getQuestion s qid with
  | none => simp [applyVote, hq] at h
  | some q =>
    cases hpc : pc with
    | none => simp [applyVote, hq, hpc] at h
    | some cid =>
      simp only [applyVote, hq, hpc] at h
      cases hf : (choicesOf s q.id).find? (fun c => c.id == cid) with
      | none => rw [hf] at h; exact absurd h (by simp)
      | some c =>
        rw [hf] at h
        cases h
        exact ⟨cid, rfl, rfl, rfl⟩

/-- Whether creation fails or succeeds, the choice table is either untouched
or extended by the freshly created zero-vote rows. -/
lemma createPoll_choices (s : Store) (qt : String) (cts : List String)
    (now : Int) :
    ((createPoll s qt cts now).1).choices = s.choices ∨
    ((createPoll s qt cts now).1).choices = s.choices ++
      newChoices (nextChoiceId s) (nextQuestionId s) (nonEmptyChoices cts) := by
  unfold createPoll
  by_cases h1 : questionErrors qt = [] <;> by_cases h2 : choiceErrors cts = [] <;>
    simp [h1, h2]

/-- C9: every choice row of every reachable store has a non-negative vote
counter; rows produced by poll creation either pre-existed or start at 0; and
a successful vote maps each row to a same-identity row whose counter either
is unchanged or grew by exactly 1 — the counter never decreases and no other
field moves. -/
theorem votes_counter_evolution :
    (∀ s, Reachable s → ∀ c ∈ s.choices, 0 ≤ c.votes) ∧
    (∀ s qtext ctexts now,
      ∀ c ∈ ((createPoll s qtext ctexts now).1).choices,
        c ∈ s.choices ∨ c.votes = 0) ∧
    (∀ s qid pc s', applyVote s qid pc = .ok s' →
      ∀ c' ∈ s'.choices, ∃ c ∈ s.choices, c.id = c'.id ∧
        c.choice_text = c'.choice_text ∧ c.question = c'.question ∧
        (c'.votes = c.votes ∨ c'.votes = c.votes + 1)) := by
  have hcreate : ∀ (s : Store) (qtext : String) (ctexts : List String) (now : Int),
      ∀ c ∈ ((createPoll s qtext ctexts now).1).choices,
        c ∈ s.choices ∨ c.votes = 0 := by
    intro s qtext ctexts now c hc
    rcases createPoll_choices s qtext ctexts now with he | he
    · rw [he] at hc
      exact Or.inl hc
    · rw [he] at hc
      rcases List.mem_append.mp hc with hm | hm
      · exact Or.inl hm
      · exact Or.inr (newChoices_mem _ _ _ c hm).2
  have hvote : ∀ (s : Store) (qid : Nat) (pc : Option Nat) (s' : Store),
      applyVote s qid pc = .ok s' →
      ∀ c' ∈ s'.choices, ∃ c ∈ s.choices, c.id = c'.id ∧
        c.choice_text = c'.choice_text ∧ c.question = c'.question ∧
        (c'.votes = c.votes ∨ c'.votes = c.votes + 1) := by
    intro s qid pc s' h c' hc'
    obtain ⟨cid, _, _, hch⟩ := applyVote_ok_inv h
    rw [hch] at hc'
    obtain ⟨c, hcm, hce⟩ := List.mem_map.mp hc'
    refine ⟨c, hcm, ?_⟩
    rw [← hce]
    by_cases hid : c.id = cid <;> simp [hid]
  refine ⟨?_, hcreate, hvote⟩
  intro s hs
  induction hs with
  | init => intro c hc; simp at hc
  | create s qtext ctexts now _ ih =>
    intro c hc
    rcases hcreate s qtext ctexts now c hc with hm | h0
    · exact ih c hm
    · omega
  | vote s s' qid pc _ hok ih =>
    intro c' hc'
    obtain ⟨c, hcm, _, _, _, hv⟩ := hvote s qid pc s' hok c' hc'
    have := ih c hcm
    omega

/-- C9 witness: a store reached by one successful poll creation, whose first
choice row carries a non-negative counter. -/
theorem votes_counter_evolution_witness :
    (0 : Int) ≤ (⟨1, 1, "a", 0⟩ : Choice).votes :=
  votes_counter_evolution.1 (createPoll ⟨[], []⟩ "Q" ["a", "b", "c"] 0).1
    (Reachable.create ⟨[], []⟩ "Q" ["a", "b", "c"] 0 Reachable.init)
    ⟨1, 1, "a", 0⟩ (by decide)

/-- C10: a question whose `pub_date` lies strictly in the future counts as
"published recently": the code checks only the lower bound
`pub_date >= now - 1 day` and imposes no upper bound at the current time. -/
theorem was_published_recently_future (now : Int) (q : Question) :
    (now < q.pub_date → was_published_recently now q = true) ∧
    (was_published_recently now q = true ↔ now - 86400 ≤ q.pub_date) := by
  constructor
  · intro h
    simp only [was_published_recently, decide_eq_true_eq]
    omega
  · simp [was_published_recently]

/-- C10 witness: a question published 1000 seconds in the future is "recent". -/
theorem was_published_recently_future_witness :
    was_published_recently 1000 ⟨1, "q", 2000⟩ = true :=
  (was_published_recently_future 1000 ⟨1, "q", 2000⟩).1 (by decide)

end Polls
